import Mathlib

/-!
Verification of the orderbook repository: a live order-book view fed by a
Binance WebSocket stream.  The source consists of a React component
(`OrderBook`) and a connection hook (`useBinanceSocket`).  Prices and
quantities are modelled as rationals; timer/requestAnimationFrame scheduling
is modelled by explicit event steps.
-/

namespace OrderbookLib

/-- Modelled from the spec: `PriceLevelLedger.set` (the per-level update used
by `applyDepthDelta` in `../lib/orderbook`, a file not present in src/).
Per spec §4.1: quantity > 0 inserts or overwrites the entry at the price;
otherwise the entry at the price is removed (no-op when absent; a negative
quantity is clamped, i.e. also removes).  The ledger is represented as an
association list kept strictly ascending by price (spec §3: keys unique,
ordering produced on read). -/
def ledgerSet (p q : ℚ) : List (ℚ × ℚ) → List (ℚ × ℚ)
  | [] => if 0 < q then [(p, q)] else []
  | (p₁, q₁) :: t =>
    if p < p₁ then
      (if 0 < q then (p, q) :: (p₁, q₁) :: t else (p₁, q₁) :: t)
    else if p = p₁ then
      (if 0 < q then (p, q) :: t else t)
    else
      (p₁, q₁) :: ledgerSet p q t

/-- Modelled from the spec: `applyDepthDelta` from `../lib/orderbook`
(not present in src/).  Per spec §4.2: applies each `(price, quantity)`
change to the ledger in the order received. -/
def applyDepthDelta (l : List (ℚ × ℚ)) (changes : List (ℚ × ℚ)) : List (ℚ × ℚ) :=
  changes.foldl (fun acc pq => ledgerSet pq.1 pq.2 acc) l

/-- One snapshot row: price, quantity, cumulative quantity (the `OrderRow`
interface of the component). -/
structure OrderRow where
  price : ℚ
  qty : ℚ
  cum : ℚ
  deriving DecidableEq, Repr

/-- Running-cumulative decoration of a (price, quantity) list, accumulator
starting at `acc`. -/
def addCum (acc : ℚ) : List (ℚ × ℚ) → List OrderRow
  | [] => []
  | (p, q) :: t => ⟨p, q, acc + q⟩ :: addCum (acc + q) t

/-- Which side of the book a snapshot is taken for. -/
inductive Side where
  | bids
  | asks
  deriving DecidableEq, Repr

/-- Modelled from the spec: `mapToSortedArray` from `../lib/orderbook`
(not present in src/).  Per spec §4.1 `snapshot`: entries sorted by price
(descending for bids, ascending for asks), truncated to `limit` entries,
each paired with a running cumulative sum computed over the included rows
only.  The ledger representation is already ascending, so the bid view is
its reverse. -/
def mapToSortedArray (l : List (ℚ × ℚ)) (side : Side) (limit : ℕ) : List OrderRow :=
  match side with
  | .bids => addCum 0 (l.reverse.take limit)
  | .asks => addCum 0 (l.take limit)

/-- Build a ledger from a sequence of `set` operations starting empty. -/
def buildLedger (ops : List (ℚ × ℚ)) : List (ℚ × ℚ) :=
  applyDepthDelta [] ops

example : buildLedger [(100, 2), (199/2, 1)] = [(199/2, 1), (100, 2)] := by
  norm_num [buildLedger, applyDepthDelta, ledgerSet]
example : mapToSortedArray (buildLedger [(100, 2), (199/2, 1)]) .bids 25 =
    [⟨100, 2, 2⟩, ⟨199/2, 1, 3⟩] := by
  norm_num [buildLedger, applyDepthDelta, ledgerSet, mapToSortedArray, addCum]
example : mapToSortedArray (buildLedger [(100, 2), (199/2, 1), (100, 0)]) .bids 25 =
    [⟨199/2, 1, 1⟩] := by
  norm_num [buildLedger, applyDepthDelta, ledgerSet, mapToSortedArray, addCum]

lemma ledgerSet_forall_keys {P : ℚ → Prop} {p q : ℚ} {l : List (ℚ × ℚ)}
    (hp : P p) (hl : ∀ e ∈ l, P e.1) : ∀ e ∈ ledgerSet p q l, P e.1 := by
  induction l with
  | nil =>
    intro e he
    simp only [ledgerSet] at he
    split at he
    · simp at he; simp [he, hp]
    · simp at he
  | cons hd t ih =>
    obtain ⟨p₁, q₁⟩ := hd
    intro e he
    simp only [ledgerSet] at he
    split at he
    · split at he
      · rcases List.mem_cons.1 he with h | h
        · simp [h, hp]
        · exact hl e h
      · exact hl e he
    · split at he
      · split at he
        · rcases List.mem_cons.1 he with h | h
          · simp [h, hp]
          · exact hl e (List.mem_cons_of_mem _ h)
        · exact hl e (List.mem_cons_of_mem _ he)
      · rcases List.mem_cons.1 he with h | h
        · exact h ▸ hl _ (List.mem_cons_self _ _)
        · exact ih (fun e he => hl e (List.mem_cons_of_mem _ he)) e h

lemma ledgerSet_sorted {p q : ℚ} {l : List (ℚ × ℚ)}
    (hs : l.Pairwise (fun x y => x.1 < y.1)) :
    (ledgerSet p q l).Pairwise (fun x y => x.1 < y.1) := by
  induction l with
  | nil =>
    simp only [ledgerSet]
    split <;> simp
  | cons hd t ih =>
    obtain ⟨p₁, q₁⟩ := hd
    rw [List.pairwise_cons] at hs
    obtain ⟨hhd, htl⟩ := hs
    simp only [ledgerSet]
    split
    · rename_i hlt
      split
      · exact List.pairwise_cons.2 ⟨fun e he => by
          rcases List.mem_cons.1 he with h | h
          · simp [h, hlt]
          · exact lt_trans hlt (hhd e h),
          List.pairwise_cons.2 ⟨hhd, htl⟩⟩
      · exact List.pairwise_cons.2 ⟨hhd, htl⟩
    · split
      · rename_i hne heq
        split
        · exact List.pairwise_cons.2 ⟨fun e he => heq ▸ hhd e he, htl⟩
        · exact htl
      · rename_i hne hne2
        have hgt : p₁ < p := by
          rcases lt_trichotomy p p₁ with h | h | h
          · exact absurd h hne
          · exact absurd h hne2
          · exact h
        exact List.pairwise_cons.2
          ⟨ledgerSet_forall_keys hgt hhd, ih htl⟩

lemma ledgerSet_pos {p q : ℚ} {l : List (ℚ × ℚ)}
    (hl : ∀ e ∈ l, 0 < e.2) : ∀ e ∈ ledgerSet p q l, 0 < e.2 := by
  induction l with
  | nil =>
    intro e he
    simp only [ledgerSet] at he
    split at he
    · simp at he; rename_i hq; simp [he, hq]
    · simp at he
  | cons hd t ih =>
    obtain ⟨p₁, q₁⟩ := hd
    intro e he
    simp only [ledgerSet] at he
    split at he
    · split at he
      · rcases List.mem_cons.1 he with h | h
        · rename_i hq; simp [h, hq]
        · exact hl e h
      · exact hl e he
    · split at he
      · split at he
        · rcases List.mem_cons.1 he with h | h
          · rename_i hq; simp [h, hq]
          · exact hl e (List.mem_cons_of_mem _ h)
        · exact hl e (List.mem_cons_of_mem _ he)
      · rcases List.mem_cons.1 he with h | h
        · exact h ▸ hl _ (List.mem_cons_self _ _)
        · exact ih (fun e he => hl e (List.mem_cons_of_mem _ he)) e h

lemma applyDepthDelta_sorted {l : List (ℚ × ℚ)} (changes : List (ℚ × ℚ))
    (hs : l.Pairwise (fun x y => x.1 < y.1)) :
    (applyDepthDelta l changes).Pairwise (fun x y => x.1 < y.1) := by
  induction changes generalizing l with
  | nil => exact hs
  | cons c t ih => exact ih (ledgerSet_sorted hs)

lemma applyDepthDelta_pos {l : List (ℚ × ℚ)} (changes : List (ℚ × ℚ))
    (hl : ∀ e ∈ l, 0 < e.2) :
    ∀ e ∈ applyDepthDelta l changes, 0 < e.2 := by
  induction changes generalizing l with
  | nil => exact hl
  | cons c t ih => exact ih (ledgerSet_pos hl)

lemma buildLedger_sorted (ops : List (ℚ × ℚ)) :
    (buildLedger ops).Pairwise (fun x y => x.1 < y.1) :=
  applyDepthDelta_sorted ops List.Pairwise.nil

lemma buildLedger_pos (ops : List (ℚ × ℚ)) :
    ∀ e ∈ buildLedger ops, 0 < e.2 :=
  applyDepthDelta_pos ops (by simp)

lemma ledgerSet_zero_absent {p : ℚ} {l : List (ℚ × ℚ)}
    (h : ∀ e ∈ l, e.1 ≠ p) : ledgerSet p 0 l = l := by
  induction l with
  | nil => simp [ledgerSet]
  | cons hd t ih =>
    obtain ⟨p₁, q₁⟩ := hd
    have hne : p ≠ p₁ := fun hc => h (p₁, q₁) (List.mem_cons_self _ _) hc.symm
    by_cases hlt : p < p₁
    · simp [ledgerSet, hlt]
    · simp [ledgerSet, hlt, hne, ih (fun e he => h e (List.mem_cons_of_mem _ he))]

lemma ledgerSet_zero_removes {p : ℚ} {l : List (ℚ × ℚ)}
    (hs : l.Pairwise (fun x y => x.1 < y.1)) :
    ∀ e ∈ ledgerSet p 0 l, e.1 ≠ p := by
  induction l with
  | nil => simp [ledgerSet]
  | cons hd t ih =>
    obtain ⟨p₁, q₁⟩ := hd
    rw [List.pairwise_cons] at hs
    obtain ⟨hhd, htl⟩ := hs
    intro e he
    simp only [ledgerSet] at he
    split at he
    · rename_i hlt
      rw [if_neg (lt_irrefl 0)] at he
      rcases List.mem_cons.1 he with h | h
      · exact h ▸ ne_of_gt hlt
      · exact ne_of_gt (lt_trans hlt (hhd e h))
    · split at he
      · rename_i hne heq
        rw [if_neg (lt_irrefl 0)] at he
        exact heq ▸ ne_of_gt (hhd e he)
      · rcases List.mem_cons.1 he with h | h
        · rename_i hne hne2
          rw [h]
          exact fun hc => hne2 hc.symm
        · exact ih htl e h

lemma mem_addCum {acc : ℚ} {l : List (ℚ × ℚ)} {r : OrderRow}
    (h : r ∈ addCum acc l) : (r.price, r.qty) ∈ l := by
  induction l generalizing acc with
  | nil => simp [addCum] at h
  | cons hd t ih =>
    obtain ⟨p, q⟩ := hd
    simp only [addCum] at h
    rcases List.mem_cons.1 h with h | h
    · simp [h]
    · exact List.mem_cons_of_mem _ (ih h)

lemma addCum_pairwise {R : ℚ → ℚ → Prop} {acc : ℚ} {l : List (ℚ × ℚ)}
    (h : l.Pairwise (fun x y => R x.1 y.1)) :
    (addCum acc l).Pairwise (fun r s => R r.price s.price) := by
  induction l generalizing acc with
  | nil => simp [addCum]
  | cons hd t ih =>
    obtain ⟨p, q⟩ := hd
    rw [List.pairwise_cons] at h
    obtain ⟨hhd, htl⟩ := h
    simp only [addCum]
    exact List.pairwise_cons.2
      ⟨fun s hs => hhd (s.price, s.qty) (mem_addCum hs), ih htl⟩

lemma addCum_map_pq (acc : ℚ) (l : List (ℚ × ℚ)) :
    (addCum acc l).map (fun r => (r.price, r.qty)) = l := by
  induction l generalizing acc with
  | nil => simp [addCum]
  | cons hd t ih =>
    obtain ⟨p, q⟩ := hd
    simp [addCum, ih]

lemma addCum_length (acc : ℚ) (l : List (ℚ × ℚ)) :
    (addCum acc l).length = l.length := by
  induction l generalizing acc with
  | nil => rfl
  | cons hd t ih =>
    obtain ⟨p, q⟩ := hd
    simp [addCum, ih]

lemma addCum_map_qty (acc : ℚ) (l : List (ℚ × ℚ)) :
    (addCum acc l).map OrderRow.qty = l.map Prod.snd := by
  have h := congrArg (List.map Prod.snd) (addCum_map_pq acc l)
  rwa [List.map_map] at h

lemma addCum_cum (l : List (ℚ × ℚ)) (acc : ℚ) (i : ℕ)
    (h : i < (addCum acc l).length) :
    ((addCum acc l).get ⟨i, h⟩).cum
      = acc + ((l.take (i + 1)).map Prod.snd).sum := by
  induction l generalizing acc i with
  | nil => simp [addCum] at h
  | cons hd t ih =>
    obtain ⟨p, q⟩ := hd
    cases i with
    | zero => simp [addCum]
    | succ i =>
      have h2 : i < (addCum (acc + q) t).length := by
        simpa [addCum] using h
      have := ih (acc + q) i h2
      simp only [addCum, List.get_cons_succ] at *
      rw [this, List.take_succ_cons, List.map_cons, List.sum_cons]
      ring

lemma snapshot_cum (u : List (ℚ × ℚ)) (i : ℕ) (h : i < (addCum 0 u).length) :
    ((addCum 0 u).get ⟨i, h⟩).cum
      = (((addCum 0 u).take (i + 1)).map OrderRow.qty).sum := by
  have hq : ((addCum 0 u).take (i + 1)).map OrderRow.qty
      = (u.take (i + 1)).map Prod.snd := by
    rw [List.map_take, addCum_map_qty, ← List.map_take]
  rw [addCum_cum u 0 i h, zero_add, hq]

end OrderbookLib

namespace OrderbookLib

/-- C5: for every ledger built by a sequence of `set` operations and every
limit N, the bid snapshot is strictly descending by price, the ask snapshot
is strictly ascending, both have at most N rows, each row's cumulative
quantity is the sum of the quantities of the included rows from the best
price through that row, and the spec's concrete example scenario holds:
bid changes [("100.00","2"), ("99.50","1")] give snapshot
[(100.00,2,2), (99.50,1,3)], and a further [("100.00","0")] gives
[(99.50,1,1)]. -/
theorem C5_snapshot_ordering_cumsum (ops : List (ℚ × ℚ)) (N : ℕ) :
    (mapToSortedArray (buildLedger ops) Side.bids N).Pairwise
      (fun r s => s.price < r.price)
    ∧ (mapToSortedArray (buildLedger ops) Side.asks N).Pairwise
      (fun r s => r.price < s.price)
    ∧ (mapToSortedArray (buildLedger ops) Side.bids N).length ≤ N
    ∧ (mapToSortedArray (buildLedger ops) Side.asks N).length ≤ N
    ∧ (∀ side : Side,
        ∀ i : Fin (mapToSortedArray (buildLedger ops) side N).length,
        ((mapToSortedArray (buildLedger ops) side N).get i).cum
          = (((mapToSortedArray (buildLedger ops) side N).take (i.1 + 1)).map
              OrderRow.qty).sum)
    ∧ mapToSortedArray (buildLedger [(100, 2), (199/2, 1)]) Side.bids 25
        = [⟨100, 2, 2⟩, ⟨199/2, 1, 3⟩]
    ∧ mapToSortedArray (buildLedger [(100, 2), (199/2, 1), (100, 0)]) Side.bids 25
        = [⟨199/2, 1, 1⟩] := by
  have hs := buildLedger_sorted ops
  refine ⟨?_, ?_, ?_, ?_, ?_, ?_, ?_⟩
  · have h1 : ((buildLedger ops).reverse).Pairwise (fun x y => y.1 < x.1) :=
      List.pairwise_reverse.2 hs
    exact addCum_pairwise (R := fun a b => b < a)
      (h1.sublist (List.take_sublist _ _))
  · exact addCum_pairwise (R := fun a b => a < b)
      (hs.sublist (List.take_sublist _ _))
  · simp only [mapToSortedArray, addCum_length]
    exact List.length_take_le _ _
  · simp only [mapToSortedArray, addCum_length]
    exact List.length_take_le _ _
  · intro side i
    obtain ⟨i, h⟩ := i
    cases side
    · exact snapshot_cum _ i h
    · exact snapshot_cum _ i h
  · norm_num [buildLedger, applyDepthDelta, ledgerSet, mapToSortedArray, addCum]
  · norm_num [buildLedger, applyDepthDelta, ledgerSet, mapToSortedArray, addCum]

/-- C6: a ledger built by any sequence of `set` operations never contains
an entry with quantity ≤ 0; `set(p, 0)` on an absent price is a no-op; and
`set(p, 0)` after `set(p, q)` with q > 0 leaves no level at price p. -/
theorem C6_zero_removal_invariant (ops : List (ℚ × ℚ)) (p q : ℚ) :
    (∀ e ∈ buildLedger ops, 0 < e.2)
    ∧ ((∀ e ∈ buildLedger ops, e.1 ≠ p) →
        ledgerSet p 0 (buildLedger ops) = buildLedger ops)
    ∧ (0 < q →
        ∀ e ∈ ledgerSet p 0 (ledgerSet p q (buildLedger ops)), e.1 ≠ p) :=
  ⟨buildLedger_pos ops,
   fun h => ledgerSet_zero_absent h,
   fun _ => ledgerSet_zero_removes (ledgerSet_sorted (buildLedger_sorted ops))⟩

/-- Witness for C6 at the concrete ledger built from [(100, 2)] with
p = 99 and q = 1. -/
theorem C6_zero_removal_invariant_witness :
    (∀ e ∈ buildLedger [(100, 2)], 0 < e.2)
    ∧ (ledgerSet 99 0 (buildLedger [(100, 2)]) = buildLedger [(100, 2)])
    ∧ (∀ e ∈ ledgerSet 99 0 (ledgerSet 99 1 (buildLedger [(100, 2)])),
        e.1 ≠ 99) := by
  obtain ⟨h1, h2, h3⟩ := C6_zero_removal_invariant [(100, 2)] 99 1
  have hb : buildLedger [(100, 2)] = [(100, 2)] := by
    norm_num [buildLedger, applyDepthDelta, ledgerSet]
  refine ⟨h1, h2 ?_, h3 one_pos⟩
  rw [hb]
  intro e he
  simp only [List.mem_singleton] at he
  rw [he]
  norm_num

end OrderbookLib

namespace OrderBookComp

open OrderbookLib

/-- Top-of-book bid price as computed by the component:
`const topBid = bids[0]?.price ?? 0`. -/
def topBid (bids : List OrderRow) : ℚ :=
  (bids.head?.map OrderRow.price).getD 0

/-- Top-of-book ask price as computed by the component:
`const topAsk = asks[0]?.price ?? 0`. -/
def topAsk (asks : List OrderRow) : ℚ :=
  (asks.head?.map OrderRow.price).getD 0

/-- Spread as computed by the component:
`const spread = topAsk && topBid ? topAsk - topBid : 0`
(the JS condition is truthy exactly when both prices are nonzero). -/
def spread (bids asks : List OrderRow) : ℚ :=
  if topAsk asks ≠ 0 ∧ topBid bids ≠ 0 then topAsk asks - topBid bids else 0

/-- C3 counterexample: on an empty side the component's top-of-book value is
the number 0 (the `?? 0` fallback), and an empty book is reported as a
zero-spread market, contradicting the claim that the engine reports
"no value" rather than 0. -/
theorem C3_counterexample_empty_book_is_zero :
    topBid [] = 0 ∧ topAsk [] = 0 ∧ spread [] [] = 0 := by
  refine ⟨rfl, rfl, ?_⟩
  simp [spread, topAsk, topBid]

/-- C3 amended: for every book state in which one side is empty, the
component reports the number 0 as that side's top-of-book price (via the
`?? 0` fallback) and reports a spread of 0; the "no value" presentation
exists only in the rendering layer, not in the computed values. -/
theorem C3_empty_side_reports_zero (bids asks : List OrderRow) :
    topBid [] = 0 ∧ topAsk [] = 0
    ∧ spread bids [] = 0 ∧ spread [] asks = 0 := by
  refine ⟨rfl, rfl, ?_, ?_⟩
  · simp [spread, topAsk]
  · simp [spread, topBid]

/-- State of the render coalescer: the number of pending
requestAnimationFrame callbacks (the `pending` flag is set exactly when one
is queued) and the `version` counter bumped by each fired callback. -/
structure CoState where
  queued : ℕ
  version : ℕ
  deriving DecidableEq, Repr

/-- The component's `scheduleRender`: a no-op when a callback is already
pending; otherwise queue one callback. -/
def scheduleRender (s : CoState) : CoState :=
  if s.queued ≠ 0 then s else { s with queued := 1 }

/-- A display-refresh boundary: every queued callback runs, each clearing
the pending flag and bumping the version. -/
def frameTick (s : CoState) : CoState :=
  { queued := 0, version := s.version + s.queued }

/-- Events touching the coalescer: a `scheduleRender` call or a
display-refresh boundary. -/
inductive CoEvent where
  | notify
  | frame
  deriving DecidableEq, Repr

/-- One coalescer step. -/
def coStep : CoEvent → CoState → CoState
  | .notify, s => scheduleRender s
  | .frame, s => frameTick s

/-- Run a list of coalescer events. -/
def coRun (evs : List CoEvent) (s : CoState) : CoState :=
  evs.foldl (fun t e => coStep e t) s

/-- Initial coalescer state: nothing pending. -/
def coInit : CoState := ⟨0, 0⟩

/-- Iterated `scheduleRender`. -/
def notifyN : ℕ → CoState → CoState
  | 0, s => s
  | n + 1, s => scheduleRender (notifyN n s)

lemma coStep_queued_le {s : CoState} (e : CoEvent) (h : s.queued ≤ 1) :
    (coStep e s).queued ≤ 1 := by
  cases e
  · simp only [coStep, scheduleRender]
    split
    · exact h
    · exact le_refl 1
  · simp [coStep, frameTick]

lemma coRun_queued_le {s : CoState} (evs : List CoEvent) (h : s.queued ≤ 1) :
    (coRun evs s).queued ≤ 1 := by
  induction evs generalizing s with
  | nil => exact h
  | cons e t ih => exact ih (coStep_queued_le e h)

lemma notifyN_succ_idle (K v : ℕ) : notifyN (K + 1) ⟨0, v⟩ = ⟨1, v⟩ := by
  induction K with
  | zero => simp [notifyN, scheduleRender]
  | succ K ih =>
    show scheduleRender (notifyN (K + 1) ⟨0, v⟩) = ⟨1, v⟩
    rw [ih]
    simp [scheduleRender]

/-- C7: over every event sequence at most one render callback is queued at
any time; a burst of K+1 `scheduleRender` calls within one refresh interval
leaves exactly one queued callback and does not bump the version, the next
refresh boundary fires it exactly once (version +1, nothing left queued),
and a `scheduleRender` call while one is already pending is a no-op. -/
theorem C7_render_coalescing (K v : ℕ) (evs : List CoEvent) (s : CoState) :
    (coRun evs coInit).queued ≤ 1
    ∧ notifyN (K + 1) ⟨0, v⟩ = ⟨1, v⟩
    ∧ frameTick (notifyN (K + 1) ⟨0, v⟩) = ⟨0, v + 1⟩
    ∧ scheduleRender (scheduleRender s) = scheduleRender s := by
  refine ⟨coRun_queued_le evs (by simp [coInit]), notifyN_succ_idle K v, ?_, ?_⟩
  · rw [notifyN_succ_idle K v]
    simp [frameTick]
  · by_cases h : s.queued = 0
    · simp [scheduleRender, h]
    · simp [scheduleRender, h]

/-- A depth delta as received by the component: optional bid-change and
ask-change lists (the `b`/`a` fields of the wire event). -/
structure DepthDelta where
  b : Option (List (ℚ × ℚ))
  a : Option (List (ℚ × ℚ))
  deriving DecidableEq, Repr

/-- The component state mutated by `onDepthUpdate`: both ledgers and the
render coalescer. -/
structure BookState where
  bids : List (ℚ × ℚ)
  asks : List (ℚ × ℚ)
  co : CoState
  deriving DecidableEq, Repr

/-- The component's `onDepthUpdate`: a null event returns immediately;
otherwise each side's changes (missing side defaulting to the empty list
via `?? []`) are applied to its ledger and a render is scheduled. -/
def onDepthUpdate (d : Option DepthDelta) (st : BookState) : BookState :=
  match d with
  | none => st
  | some d =>
    { bids := applyDepthDelta st.bids (d.b.getD [])
      asks := applyDepthDelta st.asks (d.a.getD [])
      co := scheduleRender st.co }

/-- C10: a null depth event leaves both ledgers (and the coalescer)
unchanged, and an event lacking one side's change list is applied exactly
as if that side's list were empty, so the other side's changes still
apply. -/
theorem C10_null_and_missing_side (st : BookState) (bCh aCh : List (ℚ × ℚ)) :
    onDepthUpdate none st = st
    ∧ onDepthUpdate (some ⟨none, some aCh⟩) st
        = onDepthUpdate (some ⟨some [], some aCh⟩) st
    ∧ onDepthUpdate (some ⟨some bCh, none⟩) st
        = onDepthUpdate (some ⟨some bCh, some []⟩) st
    ∧ (onDepthUpdate (some ⟨none, some aCh⟩) st).bids = st.bids
    ∧ (onDepthUpdate (some ⟨none, some aCh⟩) st).asks = applyDepthDelta st.asks aCh
    ∧ (onDepthUpdate (some ⟨some bCh, none⟩) st).asks = st.asks
    ∧ (onDepthUpdate (some ⟨some bCh, none⟩) st).bids = applyDepthDelta st.bids bCh := by
  refine ⟨rfl, rfl, rfl, ?_, rfl, ?_, rfl⟩
  · simp [onDepthUpdate, applyDepthDelta]
  · simp [onDepthUpdate, applyDepthDelta]

end OrderBookComp

namespace BinanceSocket

/-- Lowercasing as applied by `symbol.toLowerCase()`. -/
def strToLower (s : String) : String :=
  String.mk (s.data.map Char.toLower)

/-- The hook's endpoint base. -/
def wsBase : String := "wss://stream.binance.com:9443"

/-- The hook's `createUrl`: in combined mode, one stream address carrying
both the aggTrade topic and the depth topic with its interval; otherwise a
single-topic address carrying only the aggTrade topic. -/
def createUrl (symbol : String) (combined : Bool) (depthInterval : ℕ) : String :=
  let s := strToLower symbol
  if combined then
    wsBase ++ "/stream?streams="
      ++ (s ++ "@aggTrade" ++ "/" ++ (s ++ "@depth@" ++ toString depthInterval ++ "ms"))
  else
    wsBase ++ "/ws/" ++ s ++ "@aggTrade"

/-- Whether `pat` occurs at the head of `l`. -/
def leadsWith : List Char → List Char → Bool
  | [], _ => true
  | _ :: _, [] => false
  | c :: cs, d :: ds => c == d && leadsWith cs ds

/-- Whether `pat` occurs as a contiguous segment of `l`. -/
def hasSeg : List Char → List Char → Bool
  | pat, [] => leadsWith pat []
  | pat, d :: ds => leadsWith pat (d :: ds) || hasSeg pat ds

/-- C9: with the combined flag false, the constructed stream address is the
single aggTrade topic for the lowercased symbol: the depth-update interval
has no effect on it, the address has the `/ws/<symbol>@aggTrade` shape, and
(at the concrete configuration the component uses) the depth topic marker
is absent from it, while the combined address does carry it. -/
theorem C9_noncombined_url_has_no_depth_topic (sym : String) (i j : ℕ) :
    createUrl sym false i = createUrl sym false j
    ∧ createUrl sym false i = wsBase ++ "/ws/" ++ strToLower sym ++ "@aggTrade"
    ∧ hasSeg "@depth".toList (createUrl "BTCUSDT" false 100).toList = false
    ∧ hasSeg "@depth".toList (createUrl "BTCUSDT" true 100).toList = true := by
  refine ⟨rfl, rfl, by decide, by decide⟩

/-- An inbound payload, reduced to the one field routing inspects: the
event-kind field `e` (absent, or a string that may be empty). -/
structure Payload where
  e : Option String
  deriving DecidableEq, Repr

/-- A successfully JSON-decoded message: either a combined-stream envelope
`{stream, data}` or a bare payload. -/
inductive Parsed where
  | envelope (stream : String) (data : Payload)
  | bare (data : Payload)
  deriving DecidableEq, Repr

/-- An inbound transport message: either one that fails to JSON-decode or a
decoded one. -/
inductive Inbound where
  | malformed
  | ok (m : Parsed)
  deriving DecidableEq, Repr

/-- What one run of the `ws.onmessage` handler did: whether the catch block
reported a parse error to the diagnostics sink, and which callbacks were
invoked. -/
structure RouteResult where
  parseErrorReported : Bool
  calledAgg : Bool
  calledDepth : Bool
  deriving DecidableEq, Repr

/-- Envelope unwrapping: `'stream' in parsed ? parsed.data : parsed`. -/
def unwrap : Parsed → Payload
  | .envelope _ d => d
  | .bare d => d

/-- The hook's `ws.onmessage` handler: a decode failure lands in the catch
block (diagnostics report, nothing else); a decoded message is unwrapped,
dropped silently when its kind field is falsy (`if (!payload?.e) return`),
and otherwise dispatched by the switch, invoking a callback only when it is
registered. -/
def onMessage (hasAgg hasDepth : Bool) : Inbound → RouteResult
  | .malformed => ⟨true, false, false⟩
  | .ok m =>
    match (unwrap m).e with
    | none => ⟨false, false, false⟩
    | some k =>
      if k = "" then ⟨false, false, false⟩
      else if k = "aggTrade" then ⟨false, hasAgg, false⟩
      else if k = "depthUpdate" then ⟨false, false, hasDepth⟩
      else ⟨false, false, false⟩

/-- Connection phase of the socket the handler is attached to. -/
inductive WsPhase where
  | connecting
  | opened
  deriving DecidableEq, Repr

/-- The `ws.onmessage` handler with the connection phase it runs under: the
handler body never touches the socket, so the phase passes through. -/
def onMessageWithState (hasAgg hasDepth : Bool) (phase : WsPhase)
    (inb : Inbound) : WsPhase × RouteResult :=
  (phase, onMessage hasAgg hasDepth inb)

/-- C4 counterexample: a message that decodes fine but lacks the required
event-kind field (for example the JSON text "{}") is dropped by the early
`if (!payload?.e) return` with no report to the diagnostics sink, so the
claim that such messages are reported as a recoverable parse error is
false. -/
theorem C4_counterexample_missing_kind_not_reported :
    ¬ ((onMessage true true (.ok (.bare ⟨none⟩))).parseErrorReported = true) := by
  decide

/-- C4 amended: a message that fails to decode is reported to the
diagnostics sink and discarded with no callback invoked; a decoded message
lacking the event-kind field is discarded with no callback invoked but
silently, without a diagnostics report; in both cases the handler leaves
the connection phase unchanged (and, being a total function, cannot
crash). -/
theorem C4_malformed_message_handling (hasAgg hasDepth : Bool) (m : Parsed)
    (phase : WsPhase) :
    onMessage hasAgg hasDepth .malformed = ⟨true, false, false⟩
    ∧ ((unwrap m).e = none →
        onMessage hasAgg hasDepth (.ok m) = ⟨false, false, false⟩)
    ∧ (∀ inb, (onMessageWithState hasAgg hasDepth phase inb).1 = phase) := by
  refine ⟨rfl, fun h => ?_, fun inb => rfl⟩
  simp [onMessage, h]

/-- Witness for C4 at the concrete kind-less bare payload. -/
theorem C4_malformed_message_handling_witness :
    onMessage true true .malformed = ⟨true, false, false⟩
    ∧ onMessage true true (.ok (.bare ⟨none⟩)) = ⟨false, false, false⟩
    ∧ (onMessageWithState true true .opened .malformed).1 = .opened := by
  obtain ⟨h1, h2, h3⟩ :=
    C4_malformed_message_handling true true (.bare ⟨none⟩) .opened
  exact ⟨h1, h2 rfl, h3 .malformed⟩

/-- Modelled from the spec (§4.4 MessageRouter, stated to compare the code
against it): unwrap a combined-stream envelope to its inner payload,
classify the event-kind field into aggregated-trade, depth-update or
unknown, dispatch to the matching callback when it is registered, and
silently ignore unknown kinds and missing callbacks. -/
def routerSpec (hasAgg hasDepth : Bool) (m : Parsed) : RouteResult :=
  let payload := unwrap m
  if payload.e = some "aggTrade" then ⟨false, hasAgg, false⟩
  else if payload.e = some "depthUpdate" then ⟨false, false, hasDepth⟩
  else ⟨false, false, false⟩

/-- C8: on every successfully decoded message the handler behaves exactly
as the router specification: the combined-stream envelope is unwrapped to
its inner payload first (an enveloped payload routes identically to the
bare one), aggTrade payloads go to the trade callback when registered,
depthUpdate payloads to the depth callback when registered, and every other
kind, as well as a missing callback, is silently ignored with no diagnostics
report. -/
theorem C8_router_dispatch (hasAgg hasDepth : Bool) (m : Parsed)
    (name : String) (p : Payload) :
    onMessage hasAgg hasDepth (.ok m) = routerSpec hasAgg hasDepth m
    ∧ unwrap (.envelope name p) = p
    ∧ onMessage hasAgg hasDepth (.ok (.envelope name p))
        = onMessage hasAgg hasDepth (.ok (.bare p)) := by
  refine ⟨?_, rfl, ?_⟩
  · rcases he : (unwrap m).e with _ | k
    · simp [onMessage, routerSpec, he]
    · by_cases h1 : k = ""
      · subst h1
        simp [onMessage, routerSpec, he]
      · by_cases h2 : k = "aggTrade"
        · subst h2
          simp [onMessage, routerSpec, he]
        · by_cases h3 : k = "depthUpdate"
          · subst h3
            simp [onMessage, routerSpec, he]
          · simp [onMessage, routerSpec, he, h1, h2, h3]
  · simp [onMessage, unwrap]

/-- State of one `useBinanceSocket` effect instance: the effect's `mounted`
local, the `closedByUser` ref, the socket held in `wsRef` (with its phase),
the `backoffRef` value, how many reconnect timers are pending, the log of
delays passed to `setTimeout`, and how many WebSocket constructions have
happened. -/
structure MgrState where
  mounted : Bool
  closedByUser : Bool
  wsConn : Option WsPhase
  backoff : ℚ
  pendingTimers : ℕ
  delays : List ℚ
  opened : ℕ
  deriving DecidableEq, Repr

/-- State right after the effect body starts: mounted, not closed by the
user, no socket yet, backoff at its 500 floor. -/
def initState : MgrState :=
  ⟨true, false, none, 500, 0, [], 0⟩

/-- The hook's `connect()`: bails out when unmounted (its only guard),
otherwise constructs a new WebSocket and stores it in `wsRef`. -/
def connectFn (s : MgrState) : MgrState :=
  if s.mounted then
    { s with opened := s.opened + 1, wsConn := some .connecting }
  else s

/-- The hook's `ws.onopen`: resets the backoff to 500. -/
def handleOpen (s : MgrState) : MgrState :=
  match s.wsConn with
  | some .connecting => { s with backoff := 500, wsConn := some .opened }
  | _ => s

/-- The hook's `ws.onclose`: clears `wsRef`; then, unless closed by the
user or unmounted, schedules a reconnect after the current backoff and
multiplies the backoff by 1.8 up to the 30000 ceiling. -/
def handleClose (s : MgrState) : MgrState :=
  match s.wsConn with
  | none => s
  | some _ =>
    if s.closedByUser || !s.mounted then { s with wsConn := none }
    else
      { s with
        wsConn := none
        delays := s.delays ++ [s.backoff]
        pendingTimers := s.pendingTimers + 1
        backoff := min (s.backoff * (9/5)) 30000 }

/-- The exposed `close()`: sets the `closedByUser` flag (and calls
`wsRef.current.close()` when a socket is held; the transport's resulting
onclose is a separate `.onclose` event in a trace). -/
def userClose (s : MgrState) : MgrState :=
  { s with closedByUser := true }

/-- The effect cleanup: clears `mounted`, sets `closedByUser`, closes and
drops the socket. -/
def cleanup (s : MgrState) : MgrState :=
  { s with mounted := false, closedByUser := true, wsConn := none }

/-- A pending reconnect timer fires: the timer is consumed and the
scheduled `connect` runs. -/
def timerFire (s : MgrState) : MgrState :=
  match s.pendingTimers with
  | 0 => s
  | n + 1 => connectFn { s with pendingTimers := n }

/-- Events acting on a manager instance. -/
inductive MgrEvent where
  | start
  | onopen
  | onclose
  | closeCall
  | fire
  | unmount
  deriving DecidableEq, Repr

/-- One manager step. -/
def mgrStep : MgrEvent → MgrState → MgrState
  | .start, s => connectFn s
  | .onopen, s => handleOpen s
  | .onclose, s => handleClose s
  | .closeCall, s => userClose s
  | .fire, s => timerFire s
  | .unmount, s => cleanup s

/-- Run an event trace. -/
def mgrRun (evs : List MgrEvent) (s : MgrState) : MgrState :=
  evs.foldl (fun t e => mgrStep e t) s

/-- C1 (code bug exhibited on the code): after an initial connect and an
unexpected socket close (which leaves a reconnect timer pending), calling
`close()` sets the closed-by-caller flag, yet the timer firing afterwards
still constructs a second WebSocket, because `connect()` checks only the
`mounted` flag and never the `closedByUser` flag. -/
theorem C1_pending_reconnect_survives_close :
    (mgrRun [.start, .onclose] initState).pendingTimers = 1
    ∧ (mgrRun [.start, .onclose, .closeCall] initState).closedByUser = true
    ∧ (mgrRun [.start, .onclose, .closeCall] initState).opened = 1
    ∧ (mgrRun [.start, .onclose, .closeCall, .fire] initState).opened = 2
    ∧ (mgrRun [.start, .onclose, .closeCall, .fire] initState).wsConn
        = some .connecting := by
  refine ⟨rfl, rfl, rfl, ?_, ?_⟩ <;>
    simp [mgrRun, mgrStep, initState, connectFn, handleClose, userClose, timerFire]

/-- Trace of an initial connect followed by `n` failure cycles, each an
unexpected close followed by the reconnect timer firing. -/
def failTrace (n : ℕ) : List MgrEvent :=
  MgrEvent.start :: (List.replicate n [MgrEvent.onclose, MgrEvent.fire]).flatten

lemma mgrRun_append (a b : List MgrEvent) (s : MgrState) :
    mgrRun (a ++ b) s = mgrRun b (mgrRun a s) :=
  List.foldl_append _ _ _ _

lemma failTrace_succ (n : ℕ) :
    failTrace (n + 1) = failTrace n ++ [.onclose, .fire] := by
  simp [failTrace, List.replicate_succ']

lemma min_mul_cap {a c q : ℚ} (ha : 0 ≤ a) (hc : 0 ≤ c) (hq : 1 ≤ q) :
    min (min a c * q) c = min (a * q) c := by
  rcases le_total a c with h | h
  · rw [min_eq_left h]
  · have h1 : c ≤ c * q := le_mul_of_one_le_right hc hq
    have h2 : c ≤ a * q := h.trans (le_mul_of_one_le_right ha hq)
    rw [min_eq_right h, min_eq_right h1, min_eq_right h2]

lemma failTrace_state (n : ℕ) :
    mgrRun (failTrace n) initState =
      { mounted := true, closedByUser := false, wsConn := some .connecting,
        backoff := min (500 * (9/5 : ℚ)^n) 30000, pendingTimers := 0,
        delays := (List.range n).map (fun k => min (500 * (9/5 : ℚ)^k) 30000),
        opened := n + 1 } := by
  induction n with
  | zero =>
    simp only [failTrace, List.replicate, List.flatten, mgrRun, List.foldl,
      mgrStep, initState, connectFn]
    norm_num
  | succ n ih =>
    rw [failTrace_succ, mgrRun_append, ih]
    have hb : min (min (500 * (9/5 : ℚ)^n) 30000 * (9/5)) 30000
        = min (500 * (9/5 : ℚ)^(n+1)) 30000 := by
      rw [min_mul_cap (by positivity) (by norm_num) (by norm_num)]
      ring_nf
    simp [mgrRun, mgrStep, handleClose, timerFire, connectFn,
      List.range_succ, hb]

/-- C2: after N+1 consecutive connection failures with no intervening open,
the logged reconnect delays are exactly min(500·1.8^k, 30000) for
k = 0..N (so the Nth attempt waits min(500·1.8^(N−1), 30000)); a successful
open resets the backoff to 500, so the next failure schedules 500 again;
and four straight failures schedule the spec's example delays
500, 900, 1620, 2916. -/
theorem C2_backoff_delay_contract (N : ℕ) :
    (mgrRun (failTrace (N + 1)) initState).delays
      = (List.range (N + 1)).map (fun k => min (500 * (9/5 : ℚ)^k) 30000)
    ∧ (mgrRun (failTrace N ++ [.onopen]) initState).backoff = 500
    ∧ (mgrRun (failTrace N ++ [.onopen, .onclose]) initState).delays
      = ((List.range N).map (fun k => min (500 * (9/5 : ℚ)^k) 30000)) ++ [500]
    ∧ (mgrRun (failTrace 4) initState).delays = [500, 900, 1620, 2916] := by
  refine ⟨?_, ?_, ?_, ?_⟩
  · rw [failTrace_state]
  · rw [mgrRun_append, failTrace_state]
    simp [mgrRun, mgrStep, handleOpen]
  · rw [mgrRun_append, failTrace_state]
    simp [mgrRun, mgrStep, handleOpen, handleClose]
  · rw [failTrace_state]
    norm_num [List.range_succ, min_def]

end BinanceSocket
